import Mathlib

/-!
# Persistence-length analysis engine: verification development

The repository under study drives MDAnalysis' `PersistenceLength` tool from a
notebook.  The numerical engine itself (bond-vector extraction, bond
autocorrelation accumulation, exponential-decay fitting, and the orchestrating
analysis object) is not part of the repository's own files, so every component
below is modelled from the specification document and then verified against it.

Coordinates are modelled as real numbers (the code's floating-point values,
idealised to exact arithmetic); errors are modelled with `Except`.
-/

namespace PolymerPL

/-- A 3-dimensional coordinate vector. -/
@[ext]
structure Vec3 where
  x : ℝ
  y : ℝ
  z : ℝ

/-- The zero vector. -/
def Vec3.zero : Vec3 := ⟨0, 0, 0⟩

/-- Componentwise difference `a - b` of two vectors. -/
noncomputable def vsub (a b : Vec3) : Vec3 := ⟨a.x - b.x, a.y - b.y, a.z - b.z⟩

/-- Euclidean dot product of two vectors. -/
noncomputable def dot (a b : Vec3) : ℝ := a.x * b.x + a.y * b.y + a.z * b.z

/-- Euclidean length (norm) of a vector. -/
noncomputable def vnorm (a : Vec3) : ℝ := Real.sqrt (dot a a)

/-- Division of a vector by a scalar, componentwise. -/
noncomputable def sdiv (a : Vec3) (c : ℝ) : Vec3 := ⟨a.x / c, a.y / c, a.z / c⟩

/-- Error taxonomy of the analysis, from the spec's error-handling design:
`InsufficientAtoms`, `DegenerateBond`, `NotReady`, `AlreadyFinalized`,
`FitDidNotConverge`. -/
inductive PLError where
  | insufficientAtoms
  | degenerateBond
  | notReady
  | alreadyFinalized
  | fitDidNotConverge
deriving DecidableEq

/-- Difference vectors between adjacent positions of a chain, in chain order:
bond `i` points from atom `i` to atom `i+1`. -/
noncomputable def diffs : List Vec3 → List Vec3
  | a :: b :: rest => vsub b a :: diffs (b :: rest)
  | _ => []

/-- Modelled from the spec: the normalisation step of `BondVectorExtractor`.
Each bond vector is turned into a `(unit vector, length)` pair; a zero-length
bond fails with `DegenerateBond` rather than dividing by zero. -/
noncomputable def normalizeAll : List Vec3 → Except PLError (List (Vec3 × ℝ))
  | [] => .ok []
  | v :: vs =>
    if vnorm v = 0 then .error .degenerateBond
    else
      match normalizeAll vs with
      | .error e => .error e
      | .ok rest => .ok ((sdiv v (vnorm v), vnorm v) :: rest)

/-- Modelled from the spec: `BondVectorExtractor` (not present in the
repository's own sources, which only call the analysis).  Given one chain of
ordered atom positions it yields the `(unit vector, length)` pair of every
adjacent atom pair in chain order; it fails with `InsufficientAtoms` when the
chain has fewer than two atoms. -/
noncomputable def extract (chain : List Vec3) : Except PLError (List (Vec3 × ℝ)) :=
  if chain.length < 2 then .error .insufficientAtoms
  else normalizeAll (diffs chain)

/-- Atom position `i` of a chain (`Vec3.zero` out of range). -/
def nthPos (c : List Vec3) (i : ℕ) : Vec3 := c.getD i Vec3.zero

/-- Bond vector `i` of a chain: from atom `i` to atom `i+1`. -/
noncomputable def bondAt (c : List Vec3) (i : ℕ) : Vec3 := vsub (nthPos c (i + 1)) (nthPos c i)

/-- A chain with no two coincident adjacent atoms. -/
def noCoincident (c : List Vec3) : Prop :=
  ∀ i, i + 1 < c.length → nthPos c i ≠ nthPos c (i + 1)

/-- A chain that can contribute to the analysis: at least two atoms and no
coincident adjacent atoms. -/
def validChain (c : List Vec3) : Prop := 2 ≤ c.length ∧ noCoincident c

theorem dot_self_nonneg (v : Vec3) : 0 ≤ dot v v := by
  have hx := sq_nonneg v.x
  have hy := sq_nonneg v.y
  have hz := sq_nonneg v.z
  simp only [dot]
  nlinarith

theorem dot_self_eq_zero_iff (v : Vec3) : dot v v = 0 ↔ v = Vec3.zero := by
  constructor
  · intro h
    have hx := sq_nonneg v.x
    have hy := sq_nonneg v.y
    have hz := sq_nonneg v.z
    simp only [dot] at h
    have hx0 : v.x = 0 := by nlinarith
    have hy0 : v.y = 0 := by nlinarith
    have hz0 : v.z = 0 := by nlinarith
    cases v
    simp_all [Vec3.zero]
  · intro h
    subst h
    simp [dot, Vec3.zero]

theorem vnorm_eq_zero_iff (v : Vec3) : vnorm v = 0 ↔ v = Vec3.zero := by
  rw [vnorm, Real.sqrt_eq_zero']
  constructor
  · intro h
    exact (dot_self_eq_zero_iff v).1 (le_antisymm h (dot_self_nonneg v))
  · intro h
    rw [(dot_self_eq_zero_iff v).2 h]

/-- A normalised nonzero vector has self-dot-product exactly 1. -/
theorem unit_dot_self {v : Vec3} (h : vnorm v ≠ 0) :
    dot (sdiv v (vnorm v)) (sdiv v (vnorm v)) = 1 := by
  have hpos : 0 < dot v v := by
    rcases lt_or_eq_of_le (dot_self_nonneg v) with hlt | heq
    · exact hlt
    · exact absurd ((vnorm_eq_zero_iff v).2 ((dot_self_eq_zero_iff v).1 heq.symm)) h
  have hsq : vnorm v * vnorm v = dot v v := by
    have := Real.sq_sqrt (le_of_lt hpos)
    simpa [vnorm, sq] using this
  simp only [dot, sdiv] at *
  field_simp
  nlinarith [hsq]

theorem length_diffs (c : List Vec3) : (diffs c).length = c.length - 1 := by
  induction c with
  | nil => simp [diffs]
  | cons a rest ih =>
    cases rest with
    | nil => simp [diffs]
    | cons b rest2 =>
      simp only [diffs, List.length_cons] at *
      omega

theorem getD_diffs (c : List Vec3) (i : ℕ) (h : i + 1 < c.length) :
    (diffs c).getD i Vec3.zero = bondAt c i := by
  induction c generalizing i with
  | nil => simp at h
  | cons a rest ih =>
    cases rest with
    | nil => simp at h
    | cons b rest2 =>
      cases i with
      | zero => simp [diffs, bondAt, nthPos]
      | succ j =>
        simp only [List.length_cons] at h
        have hj : j + 1 < (b :: rest2).length := by simpa using by omega
        simpa [diffs, bondAt, nthPos] using ih j hj

/-- When every bond vector is nonzero, normalisation succeeds and maps each
vector to its unit vector and length. -/
theorem normalizeAll_ok {ds : List Vec3} (h : ∀ v ∈ ds, vnorm v ≠ 0) :
    normalizeAll ds = .ok (ds.map (fun v => (sdiv v (vnorm v), vnorm v))) := by
  induction ds with
  | nil => simp [normalizeAll]
  | cons v vs ih =>
    have hv : vnorm v ≠ 0 := h v (List.mem_cons_self v vs)
    have hrest := ih (fun w hw => h w (List.mem_cons_of_mem v hw))
    simp [normalizeAll, hv, hrest]

/-- A zero-length bond anywhere in the list makes normalisation fail with
`DegenerateBond`. -/
theorem normalizeAll_degenerate {ds : List Vec3} (h : ∃ v ∈ ds, vnorm v = 0) :
    normalizeAll ds = .error .degenerateBond := by
  induction ds with
  | nil => simp at h
  | cons v vs ih =>
    by_cases hv : vnorm v = 0
    · simp [normalizeAll, hv]
    · rcases h with ⟨w, hw, hw0⟩
      rcases List.mem_cons.1 hw with rfl | hmem
      · exact absurd hw0 hv
      · have := ih ⟨w, hmem, hw0⟩
        simp [normalizeAll, hv, this]

/-- For a valid chain extraction succeeds and yields exactly the normalised
bond vectors in chain order. -/
theorem extract_valid {c : List Vec3} (hc : validChain c) :
    extract c = .ok ((diffs c).map (fun v => (sdiv v (vnorm v), vnorm v))) := by
  obtain ⟨hlen, hnc⟩ := hc
  have hnz : ∀ v ∈ diffs c, vnorm v ≠ 0 := by
    intro v hv
    rcases List.mem_iff_getElem.1 hv with ⟨i, hi, hget⟩
    have hi1 : i + 1 < c.length := by
      have := length_diffs c
      omega
    have hvd : v = bondAt c i := by
      rw [← getD_diffs c i hi1, List.getD_eq_getElem _ _ hi, hget]
    intro h0
    have hz : v = Vec3.zero := (vnorm_eq_zero_iff v).1 h0
    apply hnc i hi1
    have : vsub (nthPos c (i + 1)) (nthPos c i) = Vec3.zero := by
      rw [← bondAt, ← hvd, hz]
    have hx := congrArg Vec3.x this
    have hy := congrArg Vec3.y this
    have hzz := congrArg Vec3.z this
    simp only [vsub, Vec3.zero] at hx hy hzz
    ext <;> [skip; skip; skip] <;> linarith
  rw [extract, if_neg (by omega)]
  exact normalizeAll_ok hnz

/-- Extraction of a chain with fewer than two atoms fails with
`InsufficientAtoms`. -/
theorem extract_short {c : List Vec3} (h : c.length < 2) :
    extract c = .error .insufficientAtoms := by
  simp [extract, h]

/-- Every unit vector produced by a successful extraction has self-dot 1, and
every reported length is nonzero. -/
theorem extract_ok_units {c : List Vec3} {bonds : List (Vec3 × ℝ)}
    (h : extract c = .ok bonds) :
    ∀ p ∈ bonds, dot p.1 p.1 = 1 := by
  have hgen : ∀ ds (bs : List (Vec3 × ℝ)), normalizeAll ds = .ok bs →
      ∀ p ∈ bs, dot p.1 p.1 = 1 := by
    intro ds
    induction ds with
    | nil =>
      intro bs hbs p hp
      simp [normalizeAll] at hbs
      subst hbs
      simp at hp
    | cons v vs ih =>
      intro bs hbs p hp
      by_cases hv : vnorm v = 0
      · simp [normalizeAll, hv] at hbs
      · simp only [normalizeAll, if_neg hv] at hbs
        cases hrec : normalizeAll vs with
        | error e => rw [hrec] at hbs; simp at hbs
        | ok rest =>
          rw [hrec] at hbs
          simp only [Except.ok.injEq] at hbs
          subst hbs
          rcases List.mem_cons.1 hp with rfl | hmem
          · exact unit_dot_self hv
          · exact ih rest hrec p hmem
  rw [extract] at h
  by_cases hlen : c.length < 2
  · simp [hlen] at h
  · rw [if_neg hlen] at h
    exact hgen (diffs c) bonds h

/-- A successful extraction of an N-atom chain yields exactly N-1 bonds. -/
theorem extract_ok_length {c : List Vec3} {bonds : List (Vec3 × ℝ)}
    (h : extract c = .ok bonds) : bonds.length = c.length - 1 := by
  rw [extract] at h
  by_cases hlen : c.length < 2
  · simp [hlen] at h
  · rw [if_neg hlen] at h
    have hgen : ∀ ds (bs : List (Vec3 × ℝ)), normalizeAll ds = .ok bs →
        bs.length = ds.length := by
      intro ds
      induction ds with
      | nil => intro bs hbs; simp [normalizeAll] at hbs; simp [← hbs]
      | cons v vs ih =>
        intro bs hbs
        by_cases hv : vnorm v = 0
        · simp [normalizeAll, hv] at hbs
        · simp only [normalizeAll, if_neg hv] at hbs
          cases hrec : normalizeAll vs with
          | error e => rw [hrec] at hbs; simp at hbs
          | ok rest =>
            rw [hrec] at hbs
            simp only [Except.ok.injEq] at hbs
            subst hbs
            simp [ih rest hrec]
    rw [hgen (diffs c) bonds h, length_diffs]

/-- A successful extraction implies the chain had at least two atoms. -/
theorem extract_ok_atLeastTwo {c : List Vec3} {bonds : List (Vec3 × ℝ)}
    (h : extract c = .ok bonds) : 2 ≤ c.length := by
  by_contra hlt
  rw [extract_short (by omega)] at h
  simp at h

/-- One accumulator slot per lag: the running dot-product sum and the running
pair count. -/
def getEntry (e : List (ℝ × ℕ)) (n : ℕ) : ℝ × ℕ := e.getD n (0, 0)

/-- Add a dot-product value to `sum[k]` and increment `count[k]` by one
(no-op out of range; the accumulator is always grown first). -/
def bumpAt : List (ℝ × ℕ) → ℕ → ℝ → List (ℝ × ℕ)
  | [], _, _ => []
  | p :: rest, 0, v => (p.1 + v, p.2 + 1) :: rest
  | p :: rest, Nat.succ k, v => p :: bumpAt rest k v

/-- Modelled from the spec: the accumulator arrays expand the first time a
longer chain is seen, preserving previously accumulated entries. -/
def ensureLen (e : List (ℝ × ℕ)) (m : ℕ) : List (ℝ × ℕ) :=
  e ++ List.replicate (m - e.length) (0, 0)

/-- The traversal order of the spec's accumulation loops: for every start
index `i` in `[0, M)` and every lag `n` in `[0, M-i)`, the pair
`(n, dot(unit[i], unit[i+n]))`. -/
noncomputable def chainPairs (u : List Vec3) : List (ℕ × ℝ) :=
  (List.range u.length).flatMap (fun i =>
    (List.range (u.length - i)).map
      (fun n => (n, dot (u.getD i Vec3.zero) (u.getD (i + n) Vec3.zero))))

/-- Modelled from the spec: `CorrelationAccumulator` processing of one chain's
unit bond-vector sequence: grow the arrays to the chain's bond count, then add
`dot(unit[i], unit[i+n])` to `sum[n]` and increment `count[n]` for every start
index `i` and lag `n` with `i + n < M`. -/
noncomputable def accumChain (e : List (ℝ × ℕ)) (u : List Vec3) : List (ℝ × ℕ) :=
  (chainPairs u).foldl (fun a p => bumpAt a p.1 p.2) (ensureLen e u.length)

/-- Sum of `dot(unit[i], unit[i+n])` over all start indices `i` usable with
lag `n` in a chain of `u.length` bonds. -/
noncomputable def lagSum (u : List Vec3) (n : ℕ) : ℝ :=
  ((List.range (u.length - n)).map
    (fun i => dot (u.getD i Vec3.zero) (u.getD (i + n) Vec3.zero))).sum

theorem length_bumpAt (e : List (ℝ × ℕ)) (k : ℕ) (v : ℝ) :
    (bumpAt e k v).length = e.length := by
  induction e generalizing k with
  | nil => simp [bumpAt]
  | cons p rest ih =>
    cases k with
    | zero => simp [bumpAt]
    | succ j => simp [bumpAt, ih]

theorem getEntry_cons_succ (p : ℝ × ℕ) (l : List (ℝ × ℕ)) (n : ℕ) :
    getEntry (p :: l) (n + 1) = getEntry l n := by
  simp [getEntry]

theorem getEntry_bumpAt (e : List (ℝ × ℕ)) (k : ℕ) (v : ℝ) (n : ℕ) :
    getEntry (bumpAt e k v) n =
      if n = k ∧ k < e.length
      then ((getEntry e n).1 + v, (getEntry e n).2 + 1)
      else getEntry e n := by
  induction e generalizing k n with
  | nil => simp [bumpAt, getEntry]
  | cons p rest ih =>
    cases k with
    | zero =>
      cases n with
      | zero => simp [bumpAt, getEntry]
      | succ m => simp [bumpAt, getEntry]
    | succ j =>
      cases n with
      | zero => simp [bumpAt, getEntry]
      | succ m =>
        have hL : bumpAt (p :: rest) (j + 1) v = p :: bumpAt rest j v := rfl
        rw [hL, getEntry_cons_succ, ih j m, getEntry_cons_succ]
        simp only [List.length_cons, Nat.add_right_cancel_iff, Nat.add_lt_add_iff_right]

theorem length_foldBump (ps : List (ℕ × ℝ)) (e : List (ℝ × ℕ)) :
    (ps.foldl (fun a p => bumpAt a p.1 p.2) e).length = e.length := by
  induction ps generalizing e with
  | nil => simp
  | cons p ps ih => simp [List.foldl_cons, ih, length_bumpAt]

/-- Folding a list of `(lag, value)` bumps changes each in-range slot by the
sum of the values carrying that lag and by their number. -/
theorem getEntry_foldBump (ps : List (ℕ × ℝ)) (e : List (ℝ × ℕ)) (n : ℕ)
    (hn : n < e.length) :
    getEntry (ps.foldl (fun a p => bumpAt a p.1 p.2) e) n =
      ((getEntry e n).1 + ((ps.filter (fun p => p.1 = n)).map Prod.snd).sum,
       (getEntry e n).2 + (ps.filter (fun p => p.1 = n)).length) := by
  induction ps generalizing e with
  | nil => simp
  | cons p ps ih =>
    simp only [List.foldl_cons]
    have hlen : n < (bumpAt e p.1 p.2).length := by rw [length_bumpAt]; exact hn
    rw [ih (bumpAt e p.1 p.2) hlen]
    rw [getEntry_bumpAt]
    by_cases hp : p.1 = n
    · subst hp
      rw [if_pos ⟨rfl, hn⟩]
      simp only [List.filter_cons, decide_True, if_true, List.map_cons,
        List.sum_cons, List.length_cons, Prod.mk.injEq]
      exact ⟨by ring, by omega⟩
    · rw [if_neg (fun hc => hp hc.1.symm)]
      simp only [List.filter_cons]
      rw [if_neg (by simpa using hp)]

theorem length_ensureLen (e : List (ℝ × ℕ)) (m : ℕ) :
    (ensureLen e m).length = max e.length m := by
  simp [ensureLen]
  omega

theorem getEntry_ensureLen (e : List (ℝ × ℕ)) (m n : ℕ) :
    getEntry (ensureLen e m) n = getEntry e n := by
  unfold getEntry ensureLen
  rw [List.getD_eq_getElem?_getD, List.getD_eq_getElem?_getD]
  by_cases hn : n < e.length
  · rw [List.getElem?_append_left hn]
  · rw [show e[n]? = none from List.getElem?_eq_none (by omega)]
    rw [List.getElem?_append_right (by omega)]
    by_cases hm : n - e.length < m - e.length
    · rw [List.getElem?_eq_getElem (by simpa using hm)]
      simp
    · rw [List.getElem?_eq_none (by simpa using by omega)]

theorem getEntry_of_length_le (l : List (ℝ × ℕ)) (n : ℕ) (h : l.length ≤ n) :
    getEntry l n = (0, 0) := by
  unfold getEntry
  rw [List.getD_eq_getElem?_getD, List.getElem?_eq_none h]
  rfl

theorem filter_flatMap_pl {α β : Type} (l : List α) (f : α → List β) (q : β → Bool) :
    (l.flatMap f).filter q = l.flatMap (fun a => (f a).filter q) := by
  induction l with
  | nil => simp
  | cons a l ih => simp [List.flatMap_cons, List.filter_append, ih]

theorem range_filter_eq (m n : ℕ) :
    (List.range m).filter (fun k => k = n) = if n < m then [n] else [] := by
  induction m with
  | zero => simp
  | succ j ih =>
    rw [List.range_succ, List.filter_append, ih]
    by_cases hj : j = n
    · subst hj
      rw [if_neg (by omega), if_pos (by omega)]
      simp
    · rw [List.filter_cons]
      simp only [decide_eq_true_eq]
      rw [if_neg hj]
      by_cases hn : n < j
      · rw [if_pos hn, if_pos (by omega)]
        simp
      · rw [if_neg hn, if_neg (by omega)]
        simp

theorem flatMap_congr_mem {α β : Type} (l : List α) (f g : α → List β)
    (h : ∀ a ∈ l, f a = g a) : l.flatMap f = l.flatMap g := by
  induction l with
  | nil => simp
  | cons a l ih =>
    simp only [List.flatMap_cons]
    rw [h a (List.mem_cons_self a l), ih (fun b hb => h b (List.mem_cons_of_mem a hb))]

theorem flatMap_range_if {β : Type} (g : ℕ → β) (m t : ℕ) (ht : t ≤ m) :
    (List.range m).flatMap (fun i => if i < t then [g i] else []) =
      (List.range t).map g := by
  induction m with
  | zero =>
    have h0 : t = 0 := by omega
    simp [h0]
  | succ j ih =>
    rw [List.range_succ, List.flatMap_append]
    by_cases hle : t ≤ j
    · rw [ih hle]
      simp only [List.flatMap_cons, List.flatMap_nil]
      rw [if_neg (by omega)]
      simp
    · have ht' : t = j + 1 := by omega
      subst ht'
      simp only [List.flatMap_cons, List.flatMap_nil]
      rw [if_pos (by omega)]
      have hall : (List.range j).flatMap (fun i => if i < j + 1 then [g i] else []) =
          (List.range j).flatMap (fun i => [g i]) := by
        apply flatMap_congr_mem
        intro a ha
        rw [if_pos (by have := List.mem_range.1 ha; omega)]
      rw [hall, List.range_succ, List.map_append]
      congr 1
      induction (List.range j) with
      | nil => simp
      | cons a l ihl => simp [List.flatMap_cons, ihl]

/-- The contributions of one chain carrying lag `n` are exactly one per usable
start index `i < M - n`. -/
theorem filter_chainPairs (u : List Vec3) (n : ℕ) :
    (chainPairs u).filter (fun p => p.1 = n) =
      (List.range (u.length - n)).map
        (fun i => (n, dot (u.getD i Vec3.zero) (u.getD (i + n) Vec3.zero))) := by
  unfold chainPairs
  rw [filter_flatMap_pl]
  have hstep : ∀ i,
      (((List.range (u.length - i)).map
        (fun k => (k, dot (u.getD i Vec3.zero) (u.getD (i + k) Vec3.zero)))).filter
          (fun p => p.1 = n)) =
        if i < u.length - n
        then [(n, dot (u.getD i Vec3.zero) (u.getD (i + n) Vec3.zero))]
        else [] := by
    intro i
    rw [List.filter_map]
    have hc : ((fun p : ℕ × ℝ => decide (p.1 = n)) ∘
        (fun k => (k, dot (u.getD i Vec3.zero) (u.getD (i + k) Vec3.zero)))) =
        fun k => decide (k = n) := rfl
    rw [hc, range_filter_eq]
    by_cases hcase : n < u.length - i
    · rw [if_pos hcase, if_pos (by omega)]
      simp
    · rw [if_neg hcase, if_neg (by omega)]
      simp
  simp only [hstep]
  exact flatMap_range_if _ _ _ (by omega)

theorem chainPairs_counts (u : List Vec3) (n : ℕ) :
    ((chainPairs u).filter (fun p => p.1 = n)).length = u.length - n := by
  rw [filter_chainPairs]
  simp

theorem chainPairs_sums (u : List Vec3) (n : ℕ) :
    (((chainPairs u).filter (fun p => p.1 = n)).map Prod.snd).sum = lagSum u n := by
  rw [filter_chainPairs, lagSum]
  congr 1
  rw [List.map_map]
  rfl

theorem length_accumChain (e : List (ℝ × ℕ)) (u : List Vec3) :
    (accumChain e u).length = max e.length u.length := by
  rw [accumChain, length_foldBump, length_ensureLen]

/-- Per-lag characterisation of one chain's accumulation: for each lag `n`
below the bond count `M`, the slot gains the full sum of
`dot(unit[i], unit[i+n])` over every start index and exactly `M - n` new
counted pairs; slots at lag `M` and beyond are untouched. -/
theorem getEntry_accumChain (e : List (ℝ × ℕ)) (u : List Vec3) (n : ℕ) :
    getEntry (accumChain e u) n =
      if n < u.length
      then ((getEntry e n).1 + lagSum u n, (getEntry e n).2 + (u.length - n))
      else getEntry e n := by
  rw [accumChain]
  by_cases hn : n < (ensureLen e u.length).length
  · rw [getEntry_foldBump _ _ _ hn, getEntry_ensureLen, chainPairs_sums,
      chainPairs_counts]
    by_cases hm : n < u.length
    · rw [if_pos hm]
    · rw [if_neg hm]
      have hz : u.length - n = 0 := by omega
      rw [hz, lagSum]
      have hz2 : u.length - n = 0 := by omega
      simp [hz2, Prod.mk.eta]
  · rw [length_ensureLen] at hn
    have hlen : (List.foldl (fun a p => bumpAt a p.1 p.2)
        (ensureLen e u.length) (chainPairs u)).length = max e.length u.length := by
      rw [length_foldBump, length_ensureLen]
    rw [getEntry_of_length_le _ _ (by omega)]
    rw [if_neg (by omega), getEntry_of_length_le _ _ (by omega)]

/-- Modelled from the spec: the `CorrelationAccumulator` state — parallel
per-lag sum/count slots plus the running total and count of all bond lengths
used for the average bond length. -/
@[ext]
structure AccState where
  entries : List (ℝ × ℕ)
  lenSum : ℝ
  lenCount : ℕ

/-- The empty accumulator. -/
def AccState.init : AccState := ⟨[], 0, 0⟩

/-- Modelled from the spec: processing of one chain — extract its bond
vectors, then pool them into the shared accumulator; a chain whose extraction
fails is skipped without aborting the other chains. -/
noncomputable def processChain (s : AccState) (c : List Vec3) : AccState :=
  match extract c with
  | .error _ => s
  | .ok bonds =>
    ⟨accumChain s.entries (bonds.map Prod.fst),
     s.lenSum + (bonds.map Prod.snd).sum,
     s.lenCount + bonds.length⟩

/-- Modelled from the spec: one frame is a set of chains, pooled additively
into the same accumulator. -/
noncomputable def processFrame (s : AccState) (frame : List (List Vec3)) : AccState :=
  frame.foldl processChain s

/-- Modelled from the spec: accumulation across all analysed frames. -/
noncomputable def runFrames (frames : List (List (List Vec3))) : AccState :=
  frames.foldl processFrame AccState.init

/-- Modelled from the spec: finalisation of the correlation function.
`C(n) = sum[n] / count[n]` for every lag with `count[n] >= 1`; lags with zero
count are omitted, not zero-filled.  Output is the ordered `(lag, value)`
sequence. -/
noncomputable def finalize (e : List (ℝ × ℕ)) : List (ℕ × ℝ) :=
  (e.enum.filter (fun p => 1 ≤ p.2.2)).map (fun p => (p.1, p.2.1 / (p.2.2 : ℝ)))

/-- The life-cycle phases of the analysis orchestrator. -/
inductive Phase where
  | created
  | accumulating
  | accumulated
  | fitted
deriving DecidableEq

/-- Modelled from the spec: the orchestrator (`PersistenceLength` in the
notebook) — a phase plus the accumulator state it owns. -/
structure Analysis where
  phase : Phase
  acc : AccState

/-- Modelled from the spec: `run` drives extraction and accumulation over
every frame and leaves the analysis finalised (`Accumulated`). -/
noncomputable def run (frames : List (List (List Vec3))) : Analysis :=
  ⟨.accumulated, runFrames frames⟩

/-- The finished correlation sequence of an analysis, as (lag, value) pairs. -/
noncomputable def correlationOf (a : Analysis) : List (ℕ × ℝ) :=
  finalize a.acc.entries

/-- The notebook's `p.results`: the correlation values in lag order. -/
noncomputable def resultsOf (a : Analysis) : List ℝ :=
  (correlationOf a).map Prod.snd

/-- The average bond length over all sampled bonds. -/
noncomputable def lB (a : Analysis) : ℝ := a.acc.lenSum / (a.acc.lenCount : ℝ)

/-- Modelled from the spec: the sum of squared residuals of the decay model
`f(n) = exp(-n lB / lP)` against the correlation data. -/
noncomputable def residual (data : List (ℕ × ℝ)) (lb lp : ℝ) : ℝ :=
  (data.map (fun p => (p.2 - Real.exp (-(p.1 : ℝ) * lb / lp)) ^ 2)).sum

/-- Modelled from the spec: the optimiser's proposal step.  The spec leaves
the step strategy open; we fix a two-candidate halving/doubling step that
keeps whichever candidate has the smaller residual. -/
noncomputable def fitStep (data : List (ℕ × ℝ)) (lb x : ℝ) : ℝ :=
  if residual data lb (2 * x) < residual data lb (x / 2) then 2 * x else x / 2

/-- Modelled from the spec: the bounded nonlinear least-squares loop of
`DecayFitter`.  It succeeds when the residual reaches the tolerance and fails
with `FitDidNotConverge` when the iteration budget is exceeded or the residual
fails to decrease. -/
noncomputable def fitLoop (data : List (ℕ × ℝ)) (lb tol : ℝ) :
    ℕ → ℝ → Except PLError ℝ
  | 0, x =>
    if residual data lb x ≤ tol then .ok x else .error .fitDidNotConverge
  | fuel + 1, x =>
    if residual data lb x ≤ tol then .ok x
    else
      if residual data lb (fitStep data lb x) < residual data lb x
      then fitLoop data lb tol fuel (fitStep data lb x)
      else .error .fitDidNotConverge

/-- Modelled from the spec: the notebook's `perform_fit`.  Invoking the fit
before accumulation has completed fails with `NotReady`; otherwise the decay
fitter runs on the finalised correlation data and average bond length. -/
noncomputable def performFit (a : Analysis) (guess tol : ℝ) (budget : ℕ) :
    Except PLError ℝ :=
  match a.phase with
  | .created => .error .notReady
  | .accumulating => .error .notReady
  | _ => fitLoop (correlationOf a) (lB a) tol budget guess

theorem getEntry_eq_getElem (e : List (ℝ × ℕ)) (n : ℕ) (h : n < e.length) :
    getEntry e n = e[n] := List.getD_eq_getElem e (0, 0) h

/-- Every tracked lag of the accumulator has a positive count: counts start
positive when a slot is created and never decrease. -/
theorem counts_pos_processChain (s : AccState) (c : List Vec3)
    (h : ∀ n, n < s.entries.length → 1 ≤ (getEntry s.entries n).2) :
    ∀ n, n < (processChain s c).entries.length →
      1 ≤ (getEntry (processChain s c).entries n).2 := by
  intro n hn
  cases hext : extract c with
  | error e =>
    simp only [processChain, hext] at *
    exact h n hn
  | ok bonds =>
    simp only [processChain, hext] at *
    rw [length_accumChain] at hn
    rw [getEntry_accumChain]
    by_cases hm : n < (bonds.map Prod.fst).length
    · rw [if_pos hm]
      have : 1 ≤ (bonds.map Prod.fst).length - n := by omega
      omega
    · rw [if_neg hm]
      exact h n (by omega)

theorem counts_pos_processFrame (s : AccState) (f : List (List Vec3))
    (h : ∀ n, n < s.entries.length → 1 ≤ (getEntry s.entries n).2) :
    ∀ n, n < (processFrame s f).entries.length →
      1 ≤ (getEntry (processFrame s f).entries n).2 := by
  induction f generalizing s with
  | nil => exact h
  | cons c f ih =>
    simp only [processFrame, List.foldl_cons] at *
    exact ih (processChain s c) (counts_pos_processChain s c h)

theorem counts_pos_runFrames (frames : List (List (List Vec3))) :
    ∀ n, n < (runFrames frames).entries.length →
      1 ≤ (getEntry (runFrames frames).entries n).2 := by
  have gen : ∀ (l : List (List (List Vec3))) (s : AccState),
      (∀ n, n < s.entries.length → 1 ≤ (getEntry s.entries n).2) →
      ∀ n, n < (l.foldl processFrame s).entries.length →
        1 ≤ (getEntry (l.foldl processFrame s).entries n).2 := by
    intro l
    induction l with
    | nil => intro s h; exact h
    | cons f l ih =>
      intro s h
      simp only [List.foldl_cons]
      exact ih (processFrame s f) (counts_pos_processFrame s f h)
  exact gen frames AccState.init (by intro n hn; simp [AccState.init] at hn)

/-- When every tracked lag has a positive count, finalisation omits nothing:
the output is dense, entry `n` carrying lag `n` and value `sum[n]/count[n]`. -/
theorem finalize_dense (e : List (ℝ × ℕ))
    (h : ∀ n, n < e.length → 1 ≤ (getEntry e n).2) :
    finalize e = (List.range e.length).map
      (fun n => (n, (getEntry e n).1 / ((getEntry e n).2 : ℝ))) := by
  unfold finalize
  have hfilter : e.enum.filter (fun p => 1 ≤ p.2.2) = e.enum := by
    rw [List.filter_eq_self]
    intro p hp
    rcases List.mem_iff_getElem.1 hp with ⟨i, hi, hip⟩
    rw [List.getElem_enum] at hip
    have hilen : i < e.length := by
      have := List.enum_length (l := e)
      omega
    have : 1 ≤ (getEntry e i).2 := h i hilen
    rw [getEntry_eq_getElem e i hilen] at this
    rw [← hip]
    simpa using this
  rw [hfilter]
  apply List.ext_getElem
  · simp [List.enum_length]
  · intro n h1 h2
    have hn : n < e.length := by
      have := List.enum_length (l := e)
      simp at h1
      omega
    rw [List.getElem_map, List.getElem_map, List.getElem_enum, List.getElem_range]
    rw [getEntry_eq_getElem e n hn]

/-- The finalised correlation of a finished run is dense: one entry per
tracked lag, in lag order. -/
theorem correlationOf_run (frames : List (List (List Vec3))) :
    correlationOf (run frames) =
      (List.range (runFrames frames).entries.length).map
        (fun n => (n, (getEntry (runFrames frames).entries n).1 /
          ((getEntry (runFrames frames).entries n).2 : ℝ))) := by
  unfold correlationOf run
  exact finalize_dense _ (counts_pos_runFrames frames)

/-- The notebook's `p.results` array of a finished run: entry `i` is
`sum[i]/count[i]`, for every lag `i` below the tracked length. -/
theorem resultsOf_run (frames : List (List (List Vec3))) :
    resultsOf (run frames) =
      (List.range (runFrames frames).entries.length).map
        (fun n => (getEntry (runFrames frames).entries n).1 /
          ((getEntry (runFrames frames).entries n).2 : ℝ)) := by
  unfold resultsOf
  rw [correlationOf_run, List.map_map]
  rfl

theorem entries_length_le_processChain (s : AccState) (c : List Vec3) :
    s.entries.length ≤ (processChain s c).entries.length := by
  cases hext : extract c with
  | error e => simp [processChain, hext]
  | ok bonds =>
    simp only [processChain, hext]
    rw [length_accumChain]
    omega

theorem entries_length_le_processFrame (s : AccState) (f : List (List Vec3)) :
    s.entries.length ≤ (processFrame s f).entries.length := by
  induction f generalizing s with
  | nil => simp [processFrame]
  | cons c f ih =>
    simp only [processFrame, List.foldl_cons] at *
    exact le_trans (entries_length_le_processChain s c) (ih (processChain s c))

theorem entries_length_le_foldFrames (l : List (List (List Vec3))) (s : AccState) :
    s.entries.length ≤ (l.foldl processFrame s).entries.length := by
  induction l generalizing s with
  | nil => simp
  | cons f l ih =>
    simp only [List.foldl_cons]
    exact le_trans (entries_length_le_processFrame s f) (ih (processFrame s f))

theorem valid_processChain_len (s : AccState) (c : List Vec3) (hc : validChain c) :
    1 ≤ (processChain s c).entries.length := by
  rw [processChain, extract_valid hc]
  simp only [length_accumChain]
  have h1 := length_diffs c
  have h2 := hc.1
  simp only [List.length_map]
  omega

/-- A run that saw at least one valid chain tracks at least lag 0. -/
theorem valid_runFrames_len (frames : List (List (List Vec3)))
    (h : ∃ f ∈ frames, ∃ c ∈ f, validChain c) :
    1 ≤ (runFrames frames).entries.length := by
  rcases h with ⟨f, hf, c, hc, hvalid⟩
  rcases List.append_of_mem hf with ⟨F1, F2, rfl⟩
  rcases List.append_of_mem hc with ⟨l1, l2, rfl⟩
  unfold runFrames
  rw [List.foldl_append, List.foldl_cons]
  apply le_trans _ (entries_length_le_foldFrames F2 _)
  unfold processFrame
  rw [List.foldl_append, List.foldl_cons]
  have step1 := valid_processChain_len (List.foldl processChain
    (List.foldl processFrame AccState.init F1) l1) c hvalid
  calc 1 ≤ _ := step1
    _ ≤ _ := by
      have gen : ∀ (l : List (List Vec3)) (s : AccState),
          s.entries.length ≤ (List.foldl processChain s l).entries.length := by
        intro l
        induction l with
        | nil => simp
        | cons a l ih =>
          intro s
          simp only [List.foldl_cons]
          exact le_trans (entries_length_le_processChain s a) (ih (processChain s a))
      exact gen l2 _

/-- Running invariant: the lag-0 sum always equals the lag-0 count, because
every contribution to lag 0 is the self-dot-product of a unit vector. -/
theorem lag0_processChain (s : AccState) (c : List Vec3)
    (h : (getEntry s.entries 0).1 = ((getEntry s.entries 0).2 : ℝ)) :
    (getEntry (processChain s c).entries 0).1 =
      ((getEntry (processChain s c).entries 0).2 : ℝ) := by
  cases hext : extract c with
  | error e => simpa [processChain, hext] using h
  | ok bonds =>
    simp only [processChain, hext]
    rw [getEntry_accumChain]
    by_cases hm : 0 < (bonds.map Prod.fst).length
    · rw [if_pos hm]
      have hsum : lagSum (bonds.map Prod.fst) 0 =
          ((bonds.map Prod.fst).length : ℝ) := by
        unfold lagSum
        have hcongr : ∀ i ∈ List.range ((bonds.map Prod.fst).length - 0),
            dot ((bonds.map Prod.fst).getD i Vec3.zero)
              ((bonds.map Prod.fst).getD (i + 0) Vec3.zero) = 1 := by
          intro i hi
          have hilt : i < (bonds.map Prod.fst).length := by
            have := List.mem_range.1 hi
            omega
          rw [Nat.add_zero, List.getD_eq_getElem _ _ hilt]
          have hmem : (bonds.map Prod.fst)[i] ∈ bonds.map Prod.fst :=
            List.mem_iff_getElem.2 ⟨i, hilt, rfl⟩
          rcases List.mem_map.1 hmem with ⟨p, hp, hpe⟩
          rw [← hpe]
          exact extract_ok_units hext p hp
        rw [List.map_congr_left hcongr]
        simp
      rw [hsum, h]
      push_cast
      ring_nf
      simp [Nat.sub_zero]
    · rw [if_neg hm]
      exact h

theorem lag0_runFrames (frames : List (List (List Vec3))) :
    (getEntry (runFrames frames).entries 0).1 =
      ((getEntry (runFrames frames).entries 0).2 : ℝ) := by
  have genChain : ∀ (l : List (List Vec3)) (s : AccState),
      (getEntry s.entries 0).1 = ((getEntry s.entries 0).2 : ℝ) →
      (getEntry (List.foldl processChain s l).entries 0).1 =
        ((getEntry (List.foldl processChain s l).entries 0).2 : ℝ) := by
    intro l
    induction l with
    | nil => intro s h; exact h
    | cons c l ih =>
      intro s h
      simp only [List.foldl_cons]
      exact ih (processChain s c) (lag0_processChain s c h)
  have genFrames : ∀ (l : List (List (List Vec3))) (s : AccState),
      (getEntry s.entries 0).1 = ((getEntry s.entries 0).2 : ℝ) →
      (getEntry (l.foldl processFrame s).entries 0).1 =
        ((getEntry (l.foldl processFrame s).entries 0).2 : ℝ) := by
    intro l
    induction l with
    | nil => intro s h; exact h
    | cons f l ih =>
      intro s h
      simp only [List.foldl_cons]
      exact ih (processFrame s f) (genChain f s h)
  exact genFrames frames AccState.init (by simp [AccState.init, getEntry])

/-- Accumulating two chains in either order produces identical slot arrays:
the merge is element-wise addition. -/
theorem accumChain_comm (e : List (ℝ × ℕ)) (u1 u2 : List Vec3) :
    accumChain (accumChain e u1) u2 = accumChain (accumChain e u2) u1 := by
  apply List.ext_getElem
  · simp only [length_accumChain]
    omega
  · intro n h1 h2
    rw [← getEntry_eq_getElem _ _ h1, ← getEntry_eq_getElem _ _ h2]
    rw [getEntry_accumChain, getEntry_accumChain, getEntry_accumChain,
      getEntry_accumChain]
    by_cases b1 : n < u1.length <;> by_cases b2 : n < u2.length <;>
      simp only [b1, b2, if_true, if_false]
    simp only [Prod.mk.injEq]
    exact ⟨by ring, by omega⟩

theorem processChain_comm (s : AccState) (c1 c2 : List Vec3) :
    processChain (processChain s c1) c2 = processChain (processChain s c2) c1 := by
  cases h1 : extract c1 with
  | error e1 =>
    cases h2 : extract c2 with
    | error e2 => simp [processChain, h1, h2]
    | ok b2 => simp [processChain, h1, h2]
  | ok b1 =>
    cases h2 : extract c2 with
    | error e2 => simp [processChain, h1, h2]
    | ok b2 =>
      simp only [processChain, h1, h2, AccState.mk.injEq]
      exact ⟨accumChain_comm _ _ _, by ring, by omega⟩

theorem processFrame_comm (s : AccState) (f1 f2 : List (List Vec3)) :
    processFrame (processFrame s f1) f2 = processFrame (processFrame s f2) f1 := by
  unfold processFrame
  rw [← List.foldl_append, ← List.foldl_append]
  exact List.Perm.foldl_eq' List.perm_append_comm
    (fun x _ y _ z => processChain_comm z x y) s

/-- Permuting the chains of one frame does not change the accumulator. -/
theorem processFrame_perm (s : AccState) {f1 f2 : List (List Vec3)}
    (h : f1.Perm f2) : processFrame s f1 = processFrame s f2 :=
  List.Perm.foldl_eq' h (fun x _ y _ z => processChain_comm z x y) s

/-- Permuting the frames does not change the accumulator. -/
theorem runFrames_perm {F1 F2 : List (List (List Vec3))} (h : F1.Perm F2) :
    runFrames F1 = runFrames F2 :=
  List.Perm.foldl_eq' h (fun x _ y _ z => processFrame_comm z x y) AccState.init

/-- Permuting chains frame-by-frame does not change the accumulator. -/
theorem runFrames_forall2 {F1 F2 : List (List (List Vec3))}
    (h : List.Forall₂ (fun f g => f.Perm g) F1 F2) :
    runFrames F1 = runFrames F2 := by
  have gen : ∀ {G1 G2 : List (List (List Vec3))},
      List.Forall₂ (fun f g => f.Perm g) G1 G2 →
      ∀ s : AccState, G1.foldl processFrame s = G2.foldl processFrame s := by
    intro G1 G2 hG
    induction hG with
    | nil => intro s; rfl
    | cons hfg _ ih =>
      intro s
      simp only [List.foldl_cons]
      rw [processFrame_perm s hfg]
      exact ih _
  exact gen h AccState.init

/-- Any successful exit of the fit loop genuinely reached the tolerance. -/
theorem fitLoop_ok_le {data : List (ℕ × ℝ)} {lb tol : ℝ} :
    ∀ (fuel : ℕ) (x y : ℝ),
      fitLoop data lb tol fuel x = .ok y → residual data lb y ≤ tol := by
  intro fuel
  induction fuel with
  | zero =>
    intro x y h
    simp only [fitLoop] at h
    by_cases hc : residual data lb x ≤ tol
    · rw [if_pos hc] at h
      have hxy : x = y := by simpa using h
      subst hxy
      exact hc
    · rw [if_neg hc] at h
      simp at h
  | succ fuel ih =>
    intro x y h
    simp only [fitLoop] at h
    by_cases hc : residual data lb x ≤ tol
    · rw [if_pos hc] at h
      have hxy : x = y := by simpa using h
      subst hxy
      exact hc
    · rw [if_neg hc] at h
      by_cases hd : residual data lb (fitStep data lb x) < residual data lb x
      · rw [if_pos hd] at h
        exact ih _ y h
      · rw [if_neg hd] at h
        simp at h

/-- The only error the fit loop can produce is `FitDidNotConverge`. -/
theorem fitLoop_error_eq {data : List (ℕ × ℝ)} {lb tol : ℝ} :
    ∀ (fuel : ℕ) (x : ℝ) (er : PLError),
      fitLoop data lb tol fuel x = .error er → er = .fitDidNotConverge := by
  intro fuel
  induction fuel with
  | zero =>
    intro x er h
    simp only [fitLoop] at h
    by_cases hc : residual data lb x ≤ tol
    · rw [if_pos hc] at h
      simp at h
    · rw [if_neg hc] at h
      simpa using h.symm
  | succ fuel ih =>
    intro x er h
    simp only [fitLoop] at h
    by_cases hc : residual data lb x ≤ tol
    · rw [if_pos hc] at h
      simp at h
    · rw [if_neg hc] at h
      by_cases hd : residual data lb (fitStep data lb x) < residual data lb x
      · rw [if_pos hd] at h
        exact ih _ er h
      · rw [if_neg hd] at h
        simpa using h.symm

/-- A starting point already within tolerance is accepted at once. -/
theorem fitLoop_of_le {data : List (ℕ × ℝ)} {lb tol x : ℝ}
    (h : residual data lb x ≤ tol) (fuel : ℕ) :
    fitLoop data lb tol fuel x = .ok x := by
  cases fuel <;> simp [fitLoop, h]

/-- Residual of a single lag-0 data point: the model at lag 0 is exactly 1
for every candidate persistence length. -/
theorem residual_single_lag0 (c lb lp : ℝ) :
    residual [((0 : ℕ), c)] lb lp = (c - 1) ^ 2 := by
  simp [residual, Real.exp_zero]

/-- Concrete test position: the origin. -/
noncomputable def pA : Vec3 := ⟨0, 0, 0⟩

/-- Concrete test position: one unit along x. -/
noncomputable def pB : Vec3 := ⟨1, 0, 0⟩

theorem pA_ne_pB : pA ≠ pB := fun h => zero_ne_one (congrArg Vec3.x h)

theorem vsub_eq_zero_iff (b a : Vec3) : vsub b a = Vec3.zero ↔ b = a := by
  constructor
  · intro h
    have hx := congrArg Vec3.x h
    have hy := congrArg Vec3.y h
    have hz := congrArg Vec3.z h
    simp only [vsub, Vec3.zero] at hx hy hz
    ext <;> linarith
  · intro h
    subst h
    simp [vsub, Vec3.zero]

theorem valid_pair (a b : Vec3) (hab : a ≠ b) : validChain [a, b] := by
  refine ⟨by simp, ?_⟩
  intro i hi
  simp only [List.length_cons, List.length_nil] at hi
  have hi0 : i = 0 := by omega
  subst hi0
  simpa [nthPos] using hab

/-- C1: accumulating one chain whose bond-vector sequence has length `M`
adds, for every start index `i` in `[0, M)` and lag `n` in `[0, M-i)`, the
dot product `dot(unit[i], unit[i+n])` to `sum[n]` and one to `count[n]` —
per lag `n < M` the slot gains the sum over all `M - n` start indices and
exactly `M - n` counts — and every lag `n >= M` is untouched, so a chain of
`N` atoms (whose extraction yields `M = N - 1` bonds) contributes to no lag
greater than `N - 2`. -/
theorem claim_C1 : ∀ (e : List (ℝ × ℕ)) (u : List Vec3) (n : ℕ),
    (n < u.length →
      getEntry (accumChain e u) n =
        ((getEntry e n).1 + lagSum u n, (getEntry e n).2 + (u.length - n))) ∧
    (u.length ≤ n → getEntry (accumChain e u) n = getEntry e n) ∧
    (∀ (c : List Vec3) (bonds : List (Vec3 × ℝ)),
      extract c = .ok bonds → bonds.length = c.length - 1) := by
  intro e u n
  refine ⟨fun h => ?_, fun h => ?_, fun c bonds hb => extract_ok_length hb⟩
  · rw [getEntry_accumChain, if_pos h]
  · rw [getEntry_accumChain, if_neg (by omega)]

/-- Witness for C1 at a one-bond chain: lag 0 gains the full sum and one
count, lag 2 is untouched, and extraction of a 2-atom chain has 1 bond. -/
theorem claim_C1_witness :
    getEntry (accumChain [] [pB]) 0 =
      ((getEntry ([] : List (ℝ × ℕ)) 0).1 + lagSum [pB] 0,
       (getEntry ([] : List (ℝ × ℕ)) 0).2 + ([pB].length - 0)) ∧
    getEntry (accumChain [] [pB]) 2 = getEntry ([] : List (ℝ × ℕ)) 2 ∧
    ((diffs [pA, pB]).map (fun v => (sdiv v (vnorm v), vnorm v))).length =
      [pA, pB].length - 1 :=
  ⟨(claim_C1 [] [pB] 0).1 (by decide),
   (claim_C1 [] [pB] 2).2.1 (by decide),
   (claim_C1 [] [pB] 0).2.2 [pA, pB] _ (extract_valid (valid_pair pA pB pA_ne_pB))⟩

/-- C3: a chain of `N >= 2` atoms with no coincident adjacent atoms extracts
to exactly `N - 1` (unit vector, length) pairs in chain order; a chain of
fewer than 2 atoms fails with `InsufficientAtoms`. -/
theorem claim_C3 : ∀ c : List Vec3,
    (c.length < 2 → extract c = .error .insufficientAtoms) ∧
    (validChain c → ∃ bonds, extract c = .ok bonds ∧
      bonds.length = c.length - 1 ∧
      ∀ i, i < bonds.length →
        bonds.getD i (Vec3.zero, 0) =
          (sdiv (bondAt c i) (vnorm (bondAt c i)), vnorm (bondAt c i))) := by
  intro c
  refine ⟨fun h => extract_short h, fun hv => ?_⟩
  refine ⟨(diffs c).map (fun v => (sdiv v (vnorm v), vnorm v)),
    extract_valid hv, ?_, ?_⟩
  · rw [List.length_map, length_diffs]
  · intro i hi
    rw [List.length_map, length_diffs] at hi
    have hd : i < (diffs c).length := by rw [length_diffs]; omega
    have hmap : i < ((diffs c).map
        (fun v => (sdiv v (vnorm v), vnorm v))).length := by
      rw [List.length_map]; exact hd
    rw [List.getD_eq_getElem _ _ hmap, List.getElem_map]
    have hbond : (diffs c)[i] = bondAt c i := by
      rw [← List.getD_eq_getElem _ Vec3.zero hd,
        getD_diffs c i (by have := hv.1; omega)]
    rw [hbond]

/-- Witness for C3: a 1-atom chain is rejected; a 2-atom chain yields its one
bond in order. -/
theorem claim_C3_witness :
    extract [pA] = .error .insufficientAtoms ∧
    ∃ bonds, extract [pA, pB] = .ok bonds ∧
      bonds.length = [pA, pB].length - 1 ∧
      ∀ i, i < bonds.length →
        bonds.getD i (Vec3.zero, 0) =
          (sdiv (bondAt [pA, pB] i) (vnorm (bondAt [pA, pB] i)),
           vnorm (bondAt [pA, pB] i)) :=
  ⟨(claim_C3 [pA]).1 (by decide),
   (claim_C3 [pA, pB]).2 (valid_pair pA pB pA_ne_pB)⟩

/-- C4: a chain containing two coincident adjacent atoms fails extraction
with `DegenerateBond`; no division by zero, no silent skipping. -/
theorem claim_C4 : ∀ c : List Vec3, 2 ≤ c.length →
    (∃ i, i + 1 < c.length ∧ nthPos c i = nthPos c (i + 1)) →
    extract c = .error .degenerateBond := by
  intro c hlen h
  obtain ⟨i, hi, heq⟩ := h
  have hz : bondAt c i = Vec3.zero := by
    rw [bondAt, ← heq]
    exact (vsub_eq_zero_iff _ _).2 rfl
  have hmem : Vec3.zero ∈ diffs c := by
    have hd : i < (diffs c).length := by rw [length_diffs]; omega
    refine List.mem_iff_getElem.2 ⟨i, hd, ?_⟩
    rw [← List.getD_eq_getElem _ Vec3.zero hd, getD_diffs c i hi, hz]
  rw [extract, if_neg (by omega)]
  exact normalizeAll_degenerate ⟨Vec3.zero, hmem, (vnorm_eq_zero_iff _).2 rfl⟩

/-- Witness for C4: a chain of two coincident atoms is rejected as
degenerate. -/
theorem claim_C4_witness : extract [pA, pA] = .error .degenerateBond :=
  claim_C4 [pA, pA] (by decide) ⟨0, by decide, rfl⟩

/-- Accumulating a single 2-atom chain produces exactly one slot: lag 0 with
sum 1 and count 1. -/
theorem singleChain_entries (a b : Vec3) (hab : a ≠ b) :
    (runFrames [[[a, b]]]).entries = [(1, 1)] := by
  have hv : vnorm (vsub b a) ≠ 0 := by
    rw [Ne, vnorm_eq_zero_iff, vsub_eq_zero_iff]
    exact fun h => hab h.symm
  have hext : extract [a, b] =
      .ok [(sdiv (vsub b a) (vnorm (vsub b a)), vnorm (vsub b a))] := by
    rw [extract_valid (valid_pair a b hab)]
    rfl
  have hrun : runFrames [[[a, b]]] = processChain AccState.init [a, b] := rfl
  rw [hrun]
  simp only [processChain, hext]
  apply List.ext_getElem
  · rw [length_accumChain]
    simp [AccState.init]
  · intro n h1 h2
    have hn0 : n = 0 := by
      rw [length_accumChain] at h1
      simp [AccState.init] at h1
      omega
    subst hn0
    rw [← getEntry_eq_getElem _ _ h1, getEntry_accumChain]
    rw [if_pos (by simp)]
    have hlag : lagSum [sdiv (vsub b a) (vnorm (vsub b a))] 0 = 1 := by
      have hr1 : List.range 1 = [0] := rfl
      simp [lagSum, hr1, unit_dot_self hv]
    simp [AccState.init, getEntry, hlag]

/-- C5: finalisation defines `C(n) = sum[n]/count[n]` exactly for the lags
with `count[n] >= 1` and omits every zero-count lag from the output; in
particular a single 2-atom chain accumulated alone yields `[(0, 1)]`, with
every lag `n >= 1` absent. -/
theorem claim_C5 :
    (∀ (e : List (ℝ × ℕ)) (n : ℕ), n < e.length → 1 ≤ (getEntry e n).2 →
      (n, (getEntry e n).1 / ((getEntry e n).2 : ℝ)) ∈ finalize e) ∧
    (∀ (e : List (ℝ × ℕ)) (n : ℕ) (x : ℝ), (getEntry e n).2 = 0 →
      (n, x) ∉ finalize e) ∧
    (∀ a b : Vec3, a ≠ b → correlationOf (run [[[a, b]]]) = [(0, 1)]) := by
  refine ⟨?_, ?_, ?_⟩
  · intro e n hn hcnt
    unfold finalize
    apply List.mem_map.2
    refine ⟨(n, e[n]), ?_, ?_⟩
    · apply List.mem_filter.2
      refine ⟨?_, ?_⟩
      · exact List.mem_iff_getElem.2 ⟨n, by simp [List.enum_length]; omega,
          by rw [List.getElem_enum]⟩
      · rw [getEntry_eq_getElem e n hn] at hcnt
        simpa using hcnt
    · rw [getEntry_eq_getElem e n hn]
  · intro e n x hcnt hmem
    unfold finalize at hmem
    rcases List.mem_map.1 hmem with ⟨p, hpf, hpe⟩
    rcases List.mem_filter.1 hpf with ⟨hpenum, hple⟩
    rcases List.mem_iff_getElem.1 hpenum with ⟨i, hi, hig⟩
    rw [List.getElem_enum] at hig
    have hilen : i < e.length := by
      have := List.enum_length (l := e)
      omega
    have hp1 : p.1 = i := by rw [← hig]
    have hp2 : p.2 = e[i] := by rw [← hig]
    have hin : i = n := by
      have := congrArg Prod.fst hpe
      simpa [hp1] using this
    subst hin
    rw [getEntry_eq_getElem e i hilen] at hcnt
    have hge : 1 ≤ p.2.2 := by simpa using hple
    rw [hp2] at hge
    omega
  · intro a b hab
    have hent := singleChain_entries a b hab
    show finalize (runFrames [[[a, b]]]).entries = [(0, 1)]
    rw [hent]
    simp [finalize]

/-- Witness for C5: a positive-count slot appears with its exact quotient, a
zero-count slot is omitted, and one 2-atom chain yields exactly `[(0, 1)]`. -/
theorem claim_C5_witness :
    ((0 : ℕ), (getEntry [((3 : ℝ), (2 : ℕ))] 0).1 /
      ((getEntry [((3 : ℝ), (2 : ℕ))] 0).2 : ℝ)) ∈ finalize [((3 : ℝ), (2 : ℕ))] ∧
    ((1 : ℕ), (37 : ℝ)) ∉ finalize [((3 : ℝ), (2 : ℕ)), ((5 : ℝ), (0 : ℕ))] ∧
    correlationOf (run [[[pA, pB]]]) = [(0, 1)] :=
  ⟨claim_C5.1 [((3 : ℝ), (2 : ℕ))] 0 (by decide) (by decide),
   claim_C5.2.1 [((3 : ℝ), (2 : ℕ)), ((5 : ℝ), (0 : ℕ))] 1 37 (by decide),
   claim_C5.2.2 pA pB pA_ne_pB⟩

/-- C2: after accumulating at least one valid chain (all chains valid), the
finalised correlation at lag 0 equals 1 exactly: it is the average of the
self-dot-products of unit vectors. -/
theorem claim_C2 : ∀ frames : List (List (List Vec3)),
    (∀ f ∈ frames, ∀ c ∈ f, validChain c) →
    (∃ f ∈ frames, ∃ c ∈ f, validChain c) →
    (resultsOf (run frames)).getD 0 0 = 1 := by
  intro frames _hall hex
  rw [resultsOf_run]
  have hlen := valid_runFrames_len frames hex
  have hmlen : 0 < ((List.range (runFrames frames).entries.length).map
      (fun n => (getEntry (runFrames frames).entries n).1 /
        ((getEntry (runFrames frames).entries n).2 : ℝ))).length := by
    rw [List.length_map, List.length_range]
    omega
  rw [List.getD_eq_getElem _ _ hmlen, List.getElem_map, List.getElem_range]
  rw [lag0_runFrames frames]
  have hcnt := counts_pos_runFrames frames 0 (by omega)
  exact div_self (Nat.cast_ne_zero.2 (by omega))

/-- Witness for C2: one frame holding one valid 2-atom chain gives C(0) = 1. -/
theorem claim_C2_witness : (resultsOf (run [[[pA, pB]]])).getD 0 0 = 1 :=
  claim_C2 [[[pA, pB]]]
    (by
      intro f hf c hc
      simp only [List.mem_singleton] at hf
      subst hf
      simp only [List.mem_singleton] at hc
      subst hc
      exact valid_pair pA pB pA_ne_pB)
    ⟨[[pA, pB]], by simp, [pA, pB], by simp, valid_pair pA pB pA_ne_pB⟩

/-- C9: after a run, the results are a dense sequence indexed by lag — the
(lag, value) sequence carries exactly the lags `0, 1, ..., L-1` in order and
`results` entry `i` is `C(i) = sum[i]/count[i]`; no lag below the tracked
length is omitted. -/
theorem claim_C9 : ∀ frames : List (List (List Vec3)),
    correlationOf (run frames) =
      (List.range (runFrames frames).entries.length).map
        (fun n => (n, (getEntry (runFrames frames).entries n).1 /
          ((getEntry (runFrames frames).entries n).2 : ℝ))) ∧
    resultsOf (run frames) =
      (List.range (runFrames frames).entries.length).map
        (fun n => (getEntry (runFrames frames).entries n).1 /
          ((getEntry (runFrames frames).entries n).2 : ℝ)) :=
  fun frames => ⟨correlationOf_run frames, resultsOf_run frames⟩

/-- C6: the accumulation merge is commutative and associative, so permuting
the frames, or the chains within each frame, yields an identical analysis and
an identical final correlation array. -/
theorem claim_C6 : ∀ F1 F2 : List (List (List Vec3)),
    (F1.Perm F2 ∨ List.Forall₂ (fun f g => f.Perm g) F1 F2) →
    run F1 = run F2 ∧ resultsOf (run F1) = resultsOf (run F2) := by
  intro F1 F2 h
  have hacc : runFrames F1 = runFrames F2 := by
    rcases h with h | h
    · exact runFrames_perm h
    · exact runFrames_forall2 h
  have hrun : run F1 = run F2 := by rw [run, run, hacc]
  exact ⟨hrun, by rw [hrun]⟩

/-- Witness for C6: swapping two frames leaves the analysis unchanged. -/
theorem claim_C6_witness :
    run [[[pA, pB]], []] = run [[], [[pA, pB]]] ∧
    resultsOf (run [[[pA, pB]], []]) = resultsOf (run [[], [[pA, pB]]]) :=
  claim_C6 [[[pA, pB]], []] [[], [[pA, pB]]]
    (Or.inl (List.Perm.swap ([] : List (List Vec3)) [[pA, pB]] []))

/-- C7: invoking the fit on an analysis that has not completed accumulation
(`Created` or `Accumulating`) fails with `NotReady`; the fitter is never
entered. -/
theorem claim_C7 : ∀ (a : Analysis) (g tol : ℝ) (budget : ℕ),
    a.phase = .created ∨ a.phase = .accumulating →
    performFit a g tol budget = .error .notReady := by
  intro a g tol budget h
  rcases h with h | h <;> simp [performFit, h]

/-- Witness for C7: a freshly created analysis rejects the fit. -/
theorem claim_C7_witness :
    performFit ⟨.created, AccState.init⟩ 1 1 5 = .error .notReady :=
  claim_C7 ⟨.created, AccState.init⟩ 1 1 5 (Or.inl rfl)

/-- C8: the fit fails with `FitDidNotConverge` when the iteration budget is
exhausted without convergence or when the residual fails to decrease; any
successful result genuinely reached the tolerance (no silent default value);
and a fit error is reported to the caller unchanged by `perform_fit`. -/
theorem claim_C8 : ∀ (data : List (ℕ × ℝ)) (lb tol x : ℝ) (fuel : ℕ),
    (¬ residual data lb x ≤ tol →
      fitLoop data lb tol 0 x = .error .fitDidNotConverge) ∧
    (¬ residual data lb x ≤ tol →
      ¬ residual data lb (fitStep data lb x) < residual data lb x →
      fitLoop data lb tol (fuel + 1) x = .error .fitDidNotConverge) ∧
    (∀ y, fitLoop data lb tol fuel x = .ok y → residual data lb y ≤ tol) ∧
    (∀ (s : AccState) (er : PLError),
      fitLoop (correlationOf ⟨.accumulated, s⟩) (lB ⟨.accumulated, s⟩)
        tol fuel x = .error er →
      performFit ⟨.accumulated, s⟩ x tol fuel = .error er) := by
  intro data lb tol x fuel
  refine ⟨fun h => ?_, fun h1 h2 => ?_,
    fun y hy => fitLoop_ok_le fuel x y hy, fun s er he => he⟩
  · simp [fitLoop, h]
  · simp [fitLoop, h1, h2]

/-- Witness for C8: a lag-0 data point of value 0 cannot be fitted (residual
stuck at 1) — the loop fails at once and after a budget of 4; a lag-0 data
point of value 1 is fitted exactly; a fit error surfaces through
`perform_fit`. -/
theorem claim_C8_witness :
    fitLoop [((0 : ℕ), (0 : ℝ))] 1 0 0 1 = .error .fitDidNotConverge ∧
    fitLoop [((0 : ℕ), (0 : ℝ))] 1 0 (4 + 1) 1 = .error .fitDidNotConverge ∧
    residual [((0 : ℕ), (1 : ℝ))] 1 1 ≤ 0 ∧
    performFit ⟨.accumulated, ⟨[((0 : ℝ), (1 : ℕ))], 1, 1⟩⟩ 1 0 0 =
      .error .fitDidNotConverge := by
  refine ⟨?_, ?_, ?_, ?_⟩
  · exact (claim_C8 [((0 : ℕ), (0 : ℝ))] 1 0 1 0).1
      (by rw [residual_single_lag0]; norm_num)
  · exact (claim_C8 [((0 : ℕ), (0 : ℝ))] 1 0 1 4).2.1
      (by rw [residual_single_lag0]; norm_num)
      (by rw [residual_single_lag0, residual_single_lag0]; exact lt_irrefl _)
  · exact (claim_C8 [((0 : ℕ), (1 : ℝ))] 1 0 1 0).2.2.1 1
      (by simp [fitLoop, residual_single_lag0])
  · refine (claim_C8 [((0 : ℕ), (0 : ℝ))] 1 0 1 0).2.2.2
      ⟨[((0 : ℝ), (1 : ℕ))], 1, 1⟩ .fitDidNotConverge ?_
    have hc : correlationOf ⟨.accumulated, ⟨[((0 : ℝ), (1 : ℕ))], 1, 1⟩⟩ =
        [((0 : ℕ), (0 : ℝ))] := by
      simp [correlationOf, finalize]
    rw [hc]
    have hneg : ¬ residual [((0 : ℕ), (0 : ℝ))]
        (lB ⟨.accumulated, ⟨[((0 : ℝ), (1 : ℕ))], 1, 1⟩⟩) 1 ≤ 0 := by
      rw [residual_single_lag0]
      norm_num
    simp only [fitLoop]
    rw [if_neg hneg]

/-- C10: a single-frame trajectory is valid — `run` over one frame reaches
`Accumulated` with a nonempty correlation array, the fit is never rejected
for lack of frames (`NotReady` is impossible after the run), and the fit can
complete with a (finite, real) persistence length. -/
theorem claim_C10 : ∀ frame : List (List Vec3), (∃ c ∈ frame, validChain c) →
    (run [frame]).phase = .accumulated ∧
    1 ≤ (resultsOf (run [frame])).length ∧
    (∀ (g tol : ℝ) (budget : ℕ),
      performFit (run [frame]) g tol budget ≠ .error .notReady) ∧
    (∀ (g : ℝ) (budget : ℕ), ∃ tol lp : ℝ,
      performFit (run [frame]) g tol budget = .ok lp) := by
  intro frame hex
  have hexF : ∃ f ∈ [frame], ∃ c ∈ f, validChain c := ⟨frame, by simp, hex⟩
  have hlen := valid_runFrames_len [frame] hexF
  refine ⟨rfl, ?_, ?_, ?_⟩
  · rw [resultsOf_run, List.length_map, List.length_range]
    exact hlen
  · intro g tol budget hne
    have hfit : fitLoop (correlationOf (run [frame])) (lB (run [frame]))
        tol budget g = .error .notReady := hne
    exact PLError.noConfusion (fitLoop_error_eq budget g _ hfit)
  · intro g budget
    refine ⟨residual (correlationOf (run [frame])) (lB (run [frame])) g, g, ?_⟩
    exact fitLoop_of_le le_rfl budget

/-- Witness for C10: one frame with one valid chain runs and fits. -/
theorem claim_C10_witness :
    (run [[[pA, pB]]]).phase = .accumulated ∧
    1 ≤ (resultsOf (run [[[pA, pB]]])).length ∧
    (∀ (g tol : ℝ) (budget : ℕ),
      performFit (run [[[pA, pB]]]) g tol budget ≠ .error .notReady) ∧
    (∀ (g : ℝ) (budget : ℕ), ∃ tol lp : ℝ,
      performFit (run [[[pA, pB]]]) g tol budget = .ok lp) :=
  claim_C10 [[pA, pB]] ⟨[pA, pB], by simp, valid_pair pA pB pA_ne_pB⟩

end PolymerPL
